import Mathlib

/-!
# Verification of the byte ring buffer and its overwrite-oldest eviction policy

Shallow embedding of the C ring buffer (`RingBuf` struct with `data`, `cap`,
`head`, `tail`, `size` fields and the operations `rb_init`, `rb_free`,
`rb_clear`, `rb_capacity`, `rb_size`, `rb_free_space`, `rb_push`, `rb_pop`,
`rb_peek`, `rb_search`) together with the serial-terminal eviction wrapper
`rb_push_overwrite` and its global dropped-byte counter.

Modelling conventions:
* bytes are `Nat` (the byte values never overflow any arithmetic here);
* the backing store `uint8_t *data` is `Option (List Nat)`: `none` models a
  `NULL` data pointer (a buffer that was never constructed or was destroyed
  by `rb_free`), `some d` a malloc'ed array of `d.length` bytes;
* a `NULL` source/destination pointer argument is modelled by `Option`/`Bool`
  arguments (`none`/`false` = `NULL`);
* `size_t` values are `Nat`; all the arithmetic performed by the code keeps
  them `≤ cap`, far below `2^64`, so `Nat` agrees with `size_t`;
* `memcpy` into a contiguous segment of the store is `copyInto`;
* functions that report a byte count and fill a caller buffer instead return
  the list of bytes they copied out (its length is the C return value);
* the `while` loop of `rb_push_overwrite` is written with an explicit fuel
  argument equal to its loop bound (each iteration pops at least one byte,
  so `need` iterations always suffice); this keeps the definition structural
  and hence evaluable by `decide`.
-/

/-- The `RingBuf` struct: backing store, capacity, read index (`head`),
write index (`tail`) and used-byte count (`size`). -/
structure RingBuf where
  data : Option (List Nat)
  cap : Nat
  head : Nat
  tail : Nat
  size : Nat
deriving Repr, DecidableEq

/-- `rb_mod`: map a logical index to a physical index (`x % cap`, guarding
`cap == 0`). -/
def rb_mod (x cap : Nat) : Nat :=
  if cap = 0 then 0 else x % cap

/-- `rb_at`: the byte at logical index `logical_index` counted from `head`
(`rb->data[(rb->head + logical_index) % rb->cap]`). -/
def rb_at (rb : RingBuf) (logical_index : Nat) : Nat :=
  (rb.data.getD []).getD (rb_mod (rb.head + logical_index) rb.cap) 0

/-- `rb_init`: allocate a `capacity`-byte store and zero the cursors; fails
on `capacity == 0` (allocation failure is not modelled; malloc'ed contents
are modelled as zeros — no operation ever reads them while logically absent). -/
def rb_init (capacity : Nat) : Option RingBuf :=
  if capacity = 0 then none
  else some { data := some (List.replicate capacity 0), cap := capacity,
              head := 0, tail := 0, size := 0 }

/-- `rb_free`: release the store and zero every field (the C code zeroes
`cap`, `head`, `tail`, `size` whether or not `data` was still non-NULL). -/
def rb_free (_rb : RingBuf) : RingBuf :=
  { data := none, cap := 0, head := 0, tail := 0, size := 0 }

/-- `rb_clear`: reset the cursors and the used count, keeping the store
(no-op when `data` is NULL). -/
def rb_clear (rb : RingBuf) : RingBuf :=
  match rb.data with
  | none => rb
  | some _ => { rb with head := 0, tail := 0, size := 0 }

/-- `rb_capacity` accessor. -/
def rb_capacity (rb : RingBuf) : Nat := rb.cap

/-- `rb_size` accessor. -/
def rb_size (rb : RingBuf) : Nat := rb.size

/-- `rb_free_space`: `rb->cap - rb->size`. -/
def rb_free_space (rb : RingBuf) : Nat := rb.cap - rb.size

/-- `memcpy(&d[start], s, s.length)`: overwrite the segment of `d` starting
at `start` with `s` (callers guarantee `start + s.length ≤ d.length`). -/
def copyInto (d : List Nat) (start : Nat) (s : List Nat) : List Nat :=
  d.take start ++ s ++ d.drop (start + s.length)

/-- `rb_push`: append up to `n` bytes of `src` after `tail`, in at most two
contiguous segments; returns the new state and the number of bytes written. -/
def rb_push (rb : RingBuf) (src : Option (List Nat)) (n : Nat) : RingBuf × Nat :=
  match rb.data with
  | none => (rb, 0)
  | some d =>
    match src with
    | none => (rb, 0)
    | some s =>
      if n = 0 then (rb, 0) else
      let freeBytes := rb_free_space rb
      if freeBytes = 0 then (rb, 0) else
      let n := min n freeBytes
      let first := min (rb.cap - rb.tail) n
      let d1 := copyInto d rb.tail (s.take first)
      let second := n - first
      let d2 := if second > 0 then copyInto d1 0 ((s.drop first).take second) else d1
      ({ rb with data := some d2,
                 tail := rb_mod (rb.tail + n) rb.cap,
                 size := rb.size + n }, n)

/-- `rb_pop`: remove up to `n` bytes starting at `head`, in at most two
contiguous segments; returns the new state and the bytes copied into `dst`
(`dst = false` models a NULL destination pointer). -/
def rb_pop (rb : RingBuf) (dst : Bool) (n : Nat) : RingBuf × List Nat :=
  match rb.data with
  | none => (rb, [])
  | some d =>
    if !dst then (rb, []) else
    if n = 0 then (rb, []) else
    if rb.size = 0 then (rb, []) else
    let n := min n rb.size
    let first := min (rb.cap - rb.head) n
    let out1 := (d.drop rb.head).take first
    let second := n - first
    let out2 := d.take second
    ({ rb with head := rb_mod (rb.head + n) rb.cap,
               size := rb.size - n }, out1 ++ out2)

/-- `rb_peek`: non-mutating read of up to `n` bytes starting `offset` bytes
past `head`; returns the (unchanged) state and the bytes copied out. -/
def rb_peek (rb : RingBuf) (dst : Bool) (n : Nat) (offset : Nat) : RingBuf × List Nat :=
  match rb.data with
  | none => (rb, [])
  | some d =>
    if !dst then (rb, []) else
    if rb.size ≤ offset then (rb, []) else
    let remain := rb.size - offset
    let n := min n remain
    let start := rb_mod (rb.head + offset) rb.cap
    let first := min (rb.cap - start) n
    let out1 := (d.drop start).take first
    let second := n - first
    let out2 := d.take second
    (rb, out1 ++ out2)

/-- `rb_search`: naive scan for `pattern` (of length `m`) over logical
positions `0 .. size - m`; `some pos` models `return true` with
`*out_index = pos`, `none` models `return false`. -/
def rb_search (rb : RingBuf) (pattern : Option (List Nat)) (m : Nat) : Option Nat :=
  match rb.data, pattern with
  | none, _ => none
  | some _, none => none
  | some _, some pat =>
    if m = 0 then some 0
    else if rb.size < m then none
    else
      let limit := rb.size - m
      (List.range (limit + 1)).find? (fun pos =>
        (List.range m).all (fun k => rb_at rb (pos + k) == pat.getD k 0))

/-- The eviction loop of `rb_push_overwrite`:
`while (need) { step = min(need, 1024); got = rb_pop(rb, tmp, step);
if (got == 0) break; need -= got; g_drop_bytes += got; }`.
The first argument is fuel bounding the iteration count: every executed
iteration pops `got ≥ 1` bytes, so fuel `need` (supplied by `evict`) is
never exhausted. -/
def evictFuel : Nat → RingBuf → Nat → Nat → RingBuf × Nat
  | 0, rb, _, drop => (rb, drop)
  | fuel + 1, rb, need, drop =>
    if need = 0 then (rb, drop)
    else
      let step := min need 1024
      let r := rb_pop rb true step
      let got := r.2.length
      if got = 0 then (r.1, drop)
      else evictFuel fuel r.1 (need - got) (drop + got)

/-- Entry point of the eviction loop with its natural fuel. -/
def evict (rb : RingBuf) (need drop : Nat) : RingBuf × Nat :=
  evictFuel need rb need drop

/-- `rb_push_overwrite`: never-blocking write. If `n ≥ cap`, clear the
buffer and push only the last `cap` bytes of the input, counting the surplus
`n - cap` as dropped; else if `n` exceeds the free space, pop (and count as
dropped) the oldest bytes until the input fits; then push the whole input.
`drop` threads the global `g_drop_bytes` counter; the result pairs the new
buffer state with the new counter value. -/
def rb_push_overwrite (rb : RingBuf) (src : List Nat) (n : Nat) (drop : Nat) :
    RingBuf × Nat :=
  let freeb := rb_free_space rb
  if rb.cap ≤ n then
    let p := src.drop (n - rb.cap)
    let rb1 := rb_clear rb
    let rb2 := (rb_push rb1 (some p) rb.cap).1
    (rb2, drop + (n - rb.cap))
  else
    let (rb1, drop1) := if freeb < n then evict rb (n - freeb) drop else (rb, drop)
    ((rb_push rb1 (some src) n).1, drop1)

/-- The logical content of the buffer: its `size` valid bytes in FIFO order,
starting at `head` and wrapping modulo `cap` (the addressing of `rb_at`). -/
def rb_content (rb : RingBuf) : List Nat :=
  (List.range rb.size).map (rb_at rb)

/-- The structural invariant of a live buffer: the store is allocated with
exactly `cap` bytes, `cap` is positive, `size ≤ cap`, both cursors are in
range, and `tail` sits `size` bytes past `head` modulo `cap`. -/
def rb_inv (rb : RingBuf) : Prop :=
  rb.data.isSome = true ∧ (rb.data.getD []).length = rb.cap ∧
  0 < rb.cap ∧ rb.size ≤ rb.cap ∧ rb.head < rb.cap ∧ rb.tail < rb.cap ∧
  rb.tail = (rb.head + rb.size) % rb.cap

instance (rb : RingBuf) : Decidable (rb_inv rb) := by
  unfold rb_inv; infer_instance

/-- `pattern` occurs as a contiguous slice of `l` starting at offset `o`. -/
def occursAt (l pat : List Nat) (o : Nat) : Prop :=
  o + pat.length ≤ l.length ∧ (l.drop o).take pat.length = pat

instance (l pat : List Nat) (o : Nat) : Decidable (occursAt l pat o) := by
  unfold occursAt; infer_instance

/-- One call of the interface, for stating reachability-style invariants. -/
inductive RbOp where
  | push (src : Option (List Nat)) (n : Nat)
  | pop (dst : Bool) (n : Nat)
  | clear
  | pushOverwrite (src : List Nat) (n : Nat)

/-- Apply one interface call to a buffer state (the dropped-byte counter is
irrelevant to the state invariant and is discarded). -/
def rb_apply (rb : RingBuf) (op : RbOp) : RingBuf :=
  match op with
  | .push src n => (rb_push rb src n).1
  | .pop dst n => (rb_pop rb dst n).1
  | .clear => rb_clear rb
  | .pushOverwrite src n => (rb_push_overwrite rb src n 0).1

/-- Push a list of byte strings in order, each with its own length as the
requested count; returns the final state and the per-call return values. -/
def pushAll (rb : RingBuf) (ws : List (List Nat)) : RingBuf × List Nat :=
  match ws with
  | [] => (rb, [])
  | w :: rest =>
    let r := rb_push rb (some w) w.length
    let r2 := pushAll r.1 rest
    (r2.1, r.2 :: r2.2)

/-! ## Basic index and list lemmas -/

lemma mod_two_cases (a c : Nat) (h : a < 2 * c) :
    a % c = if a < c then a else a - c := by
  split
  · exact Nat.mod_eq_of_lt (by assumption)
  · rw [Nat.mod_eq_sub_mod (by omega)]
    exact Nat.mod_eq_of_lt (by omega)

lemma getD_append (l1 l2 : List Nat) (i : Nat) :
    (l1 ++ l2).getD i 0 = if i < l1.length then l1.getD i 0 else l2.getD (i - l1.length) 0 := by
  simp only [List.getD_eq_getElem?_getD, List.getElem?_append]
  split_ifs <;> rfl

lemma getD_take_drop (s : List Nat) (a b j : Nat) (hj : j < b) :
    ((s.drop a).take b).getD j 0 = s.getD (a + j) 0 := by
  simp only [List.getD_eq_getElem?_getD, List.getElem?_take, if_pos hj, List.getElem?_drop]

lemma copyInto_length (d s : List Nat) (start : Nat) (h : start + s.length ≤ d.length) :
    (copyInto d start s).length = d.length := by
  simp [copyInto]; omega

lemma copyInto_getElem? (d s : List Nat) (start j : Nat) (h : start + s.length ≤ d.length) :
    (copyInto d start s)[j]? =
      if j < start then d[j]?
      else if j < start + s.length then s[j - start]?
      else d[j]? := by
  have h1 : (d.take start).length = start := by rw [List.length_take]; omega
  unfold copyInto
  rw [List.append_assoc, List.getElem?_append, h1]
  by_cases hj1 : j < start
  · rw [if_pos hj1, if_pos hj1, List.getElem?_take, if_pos hj1]
  · rw [if_neg hj1, if_neg hj1, List.getElem?_append]
    by_cases hj2 : j < start + s.length
    · have hj3 : j - start < s.length := by omega
      rw [if_pos hj3, if_pos hj2]
    · have hj3 : ¬ (j - start < s.length) := by omega
      rw [if_neg hj3, if_neg hj2, List.getElem?_drop]
      congr 1
      omega

lemma copyInto_getD (d s : List Nat) (start j : Nat) (h : start + s.length ≤ d.length) :
    (copyInto d start s).getD j 0 =
      if j < start then d.getD j 0
      else if j < start + s.length then s.getD (j - start) 0
      else d.getD j 0 := by
  simp only [List.getD_eq_getElem?_getD, copyInto_getElem? d s start j h]
  split_ifs <;> rfl

lemma list_eq_of_getD (l1 l2 : List Nat) (hlen : l1.length = l2.length)
    (h : ∀ i, i < l1.length → l1.getD i 0 = l2.getD i 0) : l1 = l2 := by
  apply List.ext_getElem hlen
  intro i h1 h2
  have h3 := h i h1
  rwa [List.getD_eq_getElem _ _ h1, List.getD_eq_getElem _ _ h2] at h3

/-! ## `rb_content` access lemmas -/

lemma rb_content_length (rb : RingBuf) : (rb_content rb).length = rb.size := by
  simp [rb_content]

lemma rb_content_getD (rb : RingBuf) (i : Nat) (h : i < rb.size) :
    (rb_content rb).getD i 0 = rb_at rb i := by
  rw [List.getD_eq_getElem _ _ (by rw [rb_content_length]; exact h)]
  simp [rb_content]

lemma rb_at_eq (rb : RingBuf) (d : List Nat) (hd : rb.data = some d) (hc : rb.cap ≠ 0)
    (i : Nat) : rb_at rb i = d.getD ((rb.head + i) % rb.cap) 0 := by
  simp [rb_at, rb_mod, hd, hc]

lemma getD_take (l : List Nat) (a i : Nat) (hi : i < a) :
    (l.take a).getD i 0 = l.getD i 0 := by
  simp only [List.getD_eq_getElem?_getD, List.getElem?_take, if_pos hi]

/-- The store produced by `rb_push`'s two `memcpy` segments, byte by byte:
positions `[t, t + first)` hold the first `first` input bytes, positions
`[0, second)` hold the rest, and every other position is untouched. -/
lemma push_write_getD (d s : List Nat) (c t n j : Nat)
    (hd : d.length = c) (ht : t < c) (hn : n ≤ c) (hsn : n ≤ s.length) :
    (if n - min (c - t) n > 0
       then copyInto (copyInto d t (s.take (min (c - t) n))) 0
              ((s.drop (min (c - t) n)).take (n - min (c - t) n))
       else copyInto d t (s.take (min (c - t) n))).getD j 0 =
      if j < n - min (c - t) n then s.getD (min (c - t) n + j) 0
      else if t ≤ j ∧ j < t + min (c - t) n then s.getD (j - t) 0
      else d.getD j 0 := by
  set f := min (c - t) n with hf
  set sec := n - f with hsec
  have hfn : f ≤ n := by omega
  have htf : t + f ≤ c := by omega
  have hseg1 : (s.take f).length = f := by rw [List.length_take]; omega
  have hfit1 : t + (s.take f).length ≤ d.length := by omega
  have hd1len : (copyInto d t (s.take f)).length = c := by
    rw [copyInto_length d _ t hfit1]; exact hd
  by_cases hpos : sec > 0
  · have hsect : sec ≤ t := by omega
    have hseg2 : ((s.drop f).take sec).length = sec := by
      rw [List.length_take, List.length_drop]; omega
    have hfit2 : 0 + ((s.drop f).take sec).length ≤ (copyInto d t (s.take f)).length := by
      rw [hseg2, hd1len]; omega
    rw [if_pos hpos, copyInto_getD _ _ 0 j hfit2, hseg2]
    have h0 : ¬ (j < 0) := by omega
    rw [if_neg h0, Nat.zero_add]
    by_cases hj1 : j < sec
    · rw [if_pos hj1, if_pos hj1, Nat.sub_zero, getD_take_drop s f sec j hj1]
    · rw [if_neg hj1, if_neg hj1, copyInto_getD d _ t j hfit1, hseg1]
      by_cases hj2 : j < t
      · rw [if_pos hj2]
        have : ¬ (t ≤ j ∧ j < t + f) := by omega
        rw [if_neg this]
      · rw [if_neg hj2]
        by_cases hj3 : j < t + f
        · have h4 : t ≤ j ∧ j < t + f := by omega
          rw [if_pos hj3, if_pos h4, getD_take s f (j - t) (by omega)]
        · have h4 : ¬ (t ≤ j ∧ j < t + f) := by omega
          rw [if_neg hj3, if_neg h4]
  · rw [if_neg hpos, copyInto_getD d _ t j hfit1, hseg1]
    have h0 : ¬ (j < sec) := by omega
    rw [if_neg h0]
    by_cases hj2 : j < t
    · rw [if_pos hj2]
      have : ¬ (t ≤ j ∧ j < t + f) := by omega
      rw [if_neg this]
    · rw [if_neg hj2]
      by_cases hj3 : j < t + f
      · have h4 : t ≤ j ∧ j < t + f := by omega
        rw [if_pos hj3, if_pos h4, getD_take s f (j - t) (by omega)]
      · have h4 : ¬ (t ≤ j ∧ j < t + f) := by omega
        rw [if_neg hj3, if_neg h4]

/-- Shape of `rb_push` when the handle is live, the count is nonzero and
there is free space: the result in terms of the two-segment write. -/
lemma rb_push_eq (rb : RingBuf) (d : List Nat) (hd : rb.data = some d) (s : List Nat)
    (n : Nat) (hn0 : n ≠ 0) (hfree : rb.cap - rb.size ≠ 0) :
    rb_push rb (some s) n =
      ({ rb with
          data := some (if min n (rb.cap - rb.size) -
                          min (rb.cap - rb.tail) (min n (rb.cap - rb.size)) > 0
            then copyInto
                   (copyInto d rb.tail
                     (s.take (min (rb.cap - rb.tail) (min n (rb.cap - rb.size))))) 0
                   ((s.drop (min (rb.cap - rb.tail) (min n (rb.cap - rb.size)))).take
                     (min n (rb.cap - rb.size) -
                       min (rb.cap - rb.tail) (min n (rb.cap - rb.size))))
            else copyInto d rb.tail
                   (s.take (min (rb.cap - rb.tail) (min n (rb.cap - rb.size))))),
          tail := rb_mod (rb.tail + min n (rb.cap - rb.size)) rb.cap,
          size := rb.size + min n (rb.cap - rb.size) },
        min n (rb.cap - rb.size)) := by
  simp only [rb_push, hd, rb_free_space, if_neg hn0, if_neg hfree]

/-- Full-write specification of `rb_push`: when the input fits in the free
space, the whole input is written, the logical content grows by exactly the
input at the back, and the invariant is preserved. -/
lemma rb_push_spec (rb : RingBuf) (h : rb_inv rb) (s : List Nat)
    (hfit : s.length ≤ rb.cap - rb.size) :
    (rb_push rb (some s) s.length).2 = s.length ∧
    rb_inv (rb_push rb (some s) s.length).1 ∧
    rb_content (rb_push rb (some s) s.length).1 = rb_content rb ++ s ∧
    (rb_push rb (some s) s.length).1.cap = rb.cap ∧
    (rb_push rb (some s) s.length).1.size = rb.size + s.length ∧
    (rb_push rb (some s) s.length).1.head = rb.head := by
  obtain ⟨hsome, hlen0, hcpos, hszle, hhead, htail, hteq⟩ := id h
  obtain ⟨d, hd⟩ := Option.isSome_iff_exists.mp hsome
  rw [hd] at hlen0
  simp only [Option.getD_some] at hlen0
  have hcne : rb.cap ≠ 0 := hcpos.ne'
  by_cases hs0 : s.length = 0
  · have hsnil : s = [] := List.length_eq_zero.mp hs0
    subst hsnil
    have hres : rb_push rb (some []) ([] : List Nat).length = (rb, 0) := by
      simp [rb_push, hd]
    rw [hres]
    exact ⟨rfl, h, by simp, rfl, by simp, rfl⟩
  · have hfree : rb.cap - rb.size ≠ 0 := by omega
    have hm : min s.length (rb.cap - rb.size) = s.length := by omega
    rw [rb_push_eq rb d hd s s.length hs0 hfree, hm]
    set D := (if s.length - min (rb.cap - rb.tail) s.length > 0
       then copyInto (copyInto d rb.tail (s.take (min (rb.cap - rb.tail) s.length))) 0
              ((s.drop (min (rb.cap - rb.tail) s.length)).take
                (s.length - min (rb.cap - rb.tail) s.length))
       else copyInto d rb.tail
              (s.take (min (rb.cap - rb.tail) s.length))) with hDdef
    have h1 : rb.tail + (s.take (min (rb.cap - rb.tail) s.length)).length ≤ d.length := by
      rw [List.length_take]; omega
    have hlen1 : (copyInto d rb.tail (s.take (min (rb.cap - rb.tail) s.length))).length
        = rb.cap := by
      rw [copyInto_length _ _ _ h1]; exact hlen0
    have hDlen : D.length = rb.cap := by
      rw [hDdef]
      split_ifs
      · rw [copyInto_length _ _ 0 (by rw [hlen1, List.length_take, List.length_drop]; omega)]
        exact hlen1
      · exact hlen1
    refine ⟨rfl, ?_, ?_, rfl, rfl, rfl⟩
    · -- invariant of the new state
      refine ⟨rfl, ?_, hcpos, ?_, hhead, ?_, ?_⟩
      · simpa using hDlen
      · show rb.size + s.length ≤ rb.cap
        omega
      · show rb_mod (rb.tail + s.length) rb.cap < rb.cap
        simp only [rb_mod, if_neg hcne]
        exact Nat.mod_lt _ hcpos
      · show rb_mod (rb.tail + s.length) rb.cap = (rb.head + (rb.size + s.length)) % rb.cap
        simp only [rb_mod, if_neg hcne, hteq, Nat.mod_add_mod]
        congr 1
        omega
    · -- content of the new state
      apply list_eq_of_getD
      · rw [rb_content_length, List.length_append, rb_content_length]
      · intro i hi
        rw [rb_content_length] at hi
        have hi' : i < rb.size + s.length := hi
        rw [rb_content_getD _ i hi]
        have hat : rb_at
            ⟨some D, rb.cap, rb.head, rb_mod (rb.tail + s.length) rb.cap,
              rb.size + s.length⟩ i = D.getD ((rb.head + i) % rb.cap) 0 := by
          simp [rb_at, rb_mod, hcne]
        rw [hat, hDdef,
          push_write_getD d s rb.cap rb.tail s.length ((rb.head + i) % rb.cap)
            hlen0 htail (by omega) (le_refl _),
          getD_append, rb_content_length]
        have hj2 : (rb.head + i) % rb.cap =
            if rb.head + i < rb.cap then rb.head + i else rb.head + i - rb.cap :=
          mod_two_cases _ _ (by omega)
        rcases Nat.lt_or_ge (rb.head + i) rb.cap with hci | hci
        · rw [if_pos hci] at hj2
          rcases Nat.lt_or_ge (rb.head + rb.size) rb.cap with hct | hct
          · have ht2 : rb.tail = rb.head + rb.size := by
              rw [hteq, Nat.mod_eq_of_lt hct]
            by_cases hisz : i < rb.size
            · rw [if_pos hisz, rb_content_getD rb i hisz, rb_at_eq rb d hd hcne i]
              split_ifs with h1 h2
              · exfalso; omega
              · exfalso; omega
              · rfl
            · rw [if_neg hisz]
              split_ifs with h1 h2
              · congr 1; omega
              · congr 1; omega
              · exfalso; omega
          · have ht2 : rb.tail = rb.head + rb.size - rb.cap := by
              rw [hteq, mod_two_cases _ _ (by omega), if_neg (by omega)]
            by_cases hisz : i < rb.size
            · rw [if_pos hisz, rb_content_getD rb i hisz, rb_at_eq rb d hd hcne i]
              split_ifs with h1 h2
              · exfalso; omega
              · exfalso; omega
              · rfl
            · rw [if_neg hisz]
              split_ifs with h1 h2
              · congr 1; omega
              · congr 1; omega
              · exfalso; omega
        · rw [if_neg (by omega)] at hj2
          rcases Nat.lt_or_ge (rb.head + rb.size) rb.cap with hct | hct
          · have ht2 : rb.tail = rb.head + rb.size := by
              rw [hteq, Nat.mod_eq_of_lt hct]
            by_cases hisz : i < rb.size
            · rw [if_pos hisz, rb_content_getD rb i hisz, rb_at_eq rb d hd hcne i]
              split_ifs with h1 h2
              · exfalso; omega
              · exfalso; omega
              · rfl
            · rw [if_neg hisz]
              split_ifs with h1 h2
              · congr 1; omega
              · congr 1; omega
              · exfalso; omega
          · have ht2 : rb.tail = rb.head + rb.size - rb.cap := by
              rw [hteq, mod_two_cases _ _ (by omega), if_neg (by omega)]
            by_cases hisz : i < rb.size
            · rw [if_pos hisz, rb_content_getD rb i hisz, rb_at_eq rb d hd hcne i]
              split_ifs with h1 h2
              · exfalso; omega
              · exfalso; omega
              · rfl
            · rw [if_neg hisz]
              split_ifs with h1 h2
              · congr 1; omega
              · congr 1; omega
              · exfalso; omega

lemma getD_drop (l : List Nat) (a i : Nat) : (l.drop a).getD i 0 = l.getD (a + i) 0 := by
  simp only [List.getD_eq_getElem?_getD, List.getElem?_drop]

/-- Shape of `rb_pop` when the handle is live, the count is nonzero and the
buffer is nonempty. -/
lemma rb_pop_eq (rb : RingBuf) (d : List Nat) (hd : rb.data = some d) (n : Nat)
    (hn0 : n ≠ 0) (hsz : rb.size ≠ 0) :
    rb_pop rb true n =
      ({ rb with head := rb_mod (rb.head + min n rb.size) rb.cap,
                 size := rb.size - min n rb.size },
       (d.drop rb.head).take (min (rb.cap - rb.head) (min n rb.size)) ++
         d.take (min n rb.size - min (rb.cap - rb.head) (min n rb.size))) := by
  simp only [rb_pop, hd, Bool.not_true, Bool.false_eq_true, if_false, if_neg hn0, if_neg hsz]

/-- Specification of `rb_pop`: it removes and returns exactly the first
`min n size` bytes of the logical content, preserving the invariant. -/
lemma rb_pop_spec (rb : RingBuf) (h : rb_inv rb) (n : Nat) :
    (rb_pop rb true n).2 = (rb_content rb).take (min n rb.size) ∧
    rb_inv (rb_pop rb true n).1 ∧
    rb_content (rb_pop rb true n).1 = (rb_content rb).drop (min n rb.size) ∧
    (rb_pop rb true n).1.cap = rb.cap ∧
    (rb_pop rb true n).1.size = rb.size - min n rb.size ∧
    (rb_pop rb true n).1.data = rb.data ∧
    (rb_pop rb true n).2.length = min n rb.size := by
  obtain ⟨hsome, hlen0, hcpos, hszle, hhead, htail, hteq⟩ := id h
  obtain ⟨d, hd⟩ := Option.isSome_iff_exists.mp hsome
  rw [hd] at hlen0
  simp only [Option.getD_some] at hlen0
  have hcne : rb.cap ≠ 0 := hcpos.ne'
  by_cases hn0 : n = 0
  · subst hn0
    have hres : rb_pop rb true 0 = (rb, []) := by simp [rb_pop, hd]
    rw [hres]
    refine ⟨by simp, h, by simp, rfl, by simp, rfl, by simp⟩
  · by_cases hsz : rb.size = 0
    · have hres : rb_pop rb true n = (rb, []) := by simp [rb_pop, hd, hsz]
      rw [hres]
      refine ⟨by simp [hsz], h, by simp [hsz], rfl, by simp [hsz], rfl, by simp [hsz]⟩
    · rw [rb_pop_eq rb d hd n hn0 hsz]
      set m := min n rb.size with hmdef
      have hm1 : 1 ≤ m := by omega
      have hmsz : m ≤ rb.size := by omega
      set f := min (rb.cap - rb.head) m with hfdef
      have hout1len : ((d.drop rb.head).take f).length = f := by
        rw [List.length_take, List.length_drop]; omega
      have hout2len : (d.take (m - f)).length = m - f := by
        rw [List.length_take]; omega
      have hout : (d.drop rb.head).take f ++ d.take (m - f)
          = (rb_content rb).take m := by
        apply list_eq_of_getD
        · rw [List.length_append, hout1len, hout2len, List.length_take,
            rb_content_length]
          omega
        · intro i hi
          rw [List.length_append, hout1len, hout2len] at hi
          rw [getD_append, hout1len, getD_take (rb_content rb) m i (by omega),
            rb_content_getD rb i (by omega), rb_at_eq rb d hd hcne i]
          by_cases hif : i < f
          · rw [if_pos hif, getD_take_drop d rb.head f i hif]
            congr 1
            rw [Nat.mod_eq_of_lt (by omega)]
          · rw [if_neg hif, getD_take d _ _ (by omega)]
            have hfc : f = rb.cap - rb.head := by omega
            congr 1
            rw [mod_two_cases _ _ (by omega), if_neg (by omega)]
            omega
      have hlenout : ((d.drop rb.head).take f ++ d.take (m - f)).length = m := by
        rw [hout, List.length_take, rb_content_length]
        omega
      refine ⟨hout, ?_, ?_, rfl, rfl, rfl, hlenout⟩
      · refine ⟨by rw [hd]; rfl, by rw [hd]; simpa using hlen0, hcpos, ?_, ?_, htail, ?_⟩
        · show rb.size - m ≤ rb.cap
          omega
        · show rb_mod (rb.head + m) rb.cap < rb.cap
          simp only [rb_mod, if_neg hcne]
          exact Nat.mod_lt _ hcpos
        · show rb.tail = (rb_mod (rb.head + m) rb.cap + (rb.size - m)) % rb.cap
          simp only [rb_mod, if_neg hcne, Nat.mod_add_mod]
          rw [hteq]
          congr 1
          omega
      · apply list_eq_of_getD
        · rw [rb_content_length, List.length_drop, rb_content_length]
        · intro i hi
          rw [rb_content_length] at hi
          have hi' : i < rb.size - m := hi
          rw [rb_content_getD _ i hi, getD_drop, rb_content_getD rb (m + i) (by omega),
            rb_at_eq rb d hd hcne (m + i)]
          have hat : rb_at
              ⟨rb.data, rb.cap, rb_mod (rb.head + m) rb.cap, rb.tail, rb.size - m⟩ i
              = d.getD ((rb.head + (m + i)) % rb.cap) 0 := by
            simp only [rb_at, rb_mod, if_neg hcne, hd, Option.getD_some, Nat.mod_add_mod,
              Nat.add_assoc]
          rw [hat]

/-- Shape of `rb_peek` when the handle is live and the offset is in range. -/
lemma rb_peek_eq (rb : RingBuf) (d : List Nat) (hd : rb.data = some d) (n k : Nat)
    (hk : ¬ rb.size ≤ k) :
    rb_peek rb true n k =
      (rb, (d.drop (rb_mod (rb.head + k) rb.cap)).take
             (min (rb.cap - rb_mod (rb.head + k) rb.cap) (min n (rb.size - k))) ++
           d.take (min n (rb.size - k) -
             min (rb.cap - rb_mod (rb.head + k) rb.cap) (min n (rb.size - k)))) := by
  simp only [rb_peek, hd, Bool.not_true, Bool.false_eq_true, if_false, if_neg hk]

/-- Specification of `rb_peek`: the state is untouched and the bytes
returned are exactly the logical content from offset `k`, clamped to `n`
(in particular, nothing when `k ≥ size`). -/
lemma rb_peek_spec (rb : RingBuf) (h : rb_inv rb) (n k : Nat) :
    (rb_peek rb true n k).1 = rb ∧
    (rb_peek rb true n k).2 = ((rb_content rb).drop k).take n := by
  obtain ⟨hsome, hlen0, hcpos, hszle, hhead, htail, hteq⟩ := id h
  obtain ⟨d, hd⟩ := Option.isSome_iff_exists.mp hsome
  rw [hd] at hlen0
  simp only [Option.getD_some] at hlen0
  have hcne : rb.cap ≠ 0 := hcpos.ne'
  by_cases hk : rb.size ≤ k
  · have hres : rb_peek rb true n k = (rb, []) := by
      simp [rb_peek, hd, hk]
    rw [hres]
    have hnil : (rb_content rb).drop k = [] := by
      apply List.drop_eq_nil_of_le
      rw [rb_content_length]
      exact hk
    rw [hnil, List.take_nil]
    exact ⟨rfl, rfl⟩
  · rw [rb_peek_eq rb d hd n k hk]
    refine ⟨rfl, ?_⟩
    have hstart : rb_mod (rb.head + k) rb.cap = (rb.head + k) % rb.cap := by
      simp [rb_mod, hcne]
    rw [hstart]
    set st := (rb.head + k) % rb.cap with hstdef
    have hstlt : st < rb.cap := Nat.mod_lt _ hcpos
    set m := min n (rb.size - k) with hmdef
    set f := min (rb.cap - st) m with hfdef
    have hout1len : ((d.drop st).take f).length = f := by
      rw [List.length_take, List.length_drop]; omega
    have hout2len : (d.take (m - f)).length = m - f := by
      rw [List.length_take]; omega
    apply list_eq_of_getD
    · rw [List.length_append, hout1len, hout2len, List.length_take, List.length_drop,
        rb_content_length]
      omega
    · intro i hi
      rw [List.length_append, hout1len, hout2len] at hi
      rw [getD_append, hout1len, getD_take ((rb_content rb).drop k) n i (by omega),
        getD_drop, rb_content_getD rb (k + i) (by omega), rb_at_eq rb d hd hcne (k + i)]
      have hmod : (rb.head + (k + i)) % rb.cap = (st + i) % rb.cap := by
        rw [hstdef, Nat.mod_add_mod]
        congr 1
        omega
      rw [hmod]
      by_cases hif : i < f
      · rw [if_pos hif, getD_take_drop d st f i hif]
        congr 1
        rw [Nat.mod_eq_of_lt (by omega)]
      · rw [if_neg hif, getD_take d _ _ (by omega)]
        congr 1
        rw [mod_two_cases _ _ (by omega), if_neg (by omega)]
        omega

/-- Specification of `rb_clear` on a live buffer: cursors and used count are
reset, the store and capacity are kept, and the invariant is preserved. -/
lemma rb_clear_spec (rb : RingBuf) (h : rb_inv rb) :
    rb_inv (rb_clear rb) ∧ (rb_clear rb).size = 0 ∧ (rb_clear rb).cap = rb.cap ∧
    rb_content (rb_clear rb) = [] ∧ (rb_clear rb).data = rb.data ∧
    (rb_clear rb).head = 0 ∧ (rb_clear rb).tail = 0 := by
  obtain ⟨hsome, hlen0, hcpos, hszle, hhead, htail, hteq⟩ := id h
  obtain ⟨d, hd⟩ := Option.isSome_iff_exists.mp hsome
  have hres : rb_clear rb = { rb with head := 0, tail := 0, size := 0 } := by
    simp [rb_clear, hd]
  rw [hres]
  exact ⟨⟨hsome, hlen0, hcpos, Nat.zero_le _, hcpos, hcpos, by simp⟩,
    rfl, rfl, by simp [rb_content], rfl, rfl, rfl⟩

/-- Specification of a successful `rb_init`: the invariant holds and the
buffer starts empty with the requested capacity. -/
lemma rb_init_spec (capacity : Nat) (rb0 : RingBuf) (h : rb_init capacity = some rb0) :
    rb_inv rb0 ∧ rb0.cap = capacity ∧ rb0.size = 0 ∧ rb_content rb0 = [] := by
  unfold rb_init at h
  by_cases hc : capacity = 0
  · rw [if_pos hc] at h
    exact absurd h (by simp)
  · rw [if_neg hc] at h
    have h0 : rb0 = ⟨some (List.replicate capacity 0), capacity, 0, 0, 0⟩ := by
      exact (Option.some_injective _ h).symm
    subst h0
    refine ⟨⟨rfl, by simp, Nat.pos_of_ne_zero hc, Nat.zero_le _,
      Nat.pos_of_ne_zero hc, Nat.pos_of_ne_zero hc, by simp⟩,
      rfl, rfl, by simp [rb_content]⟩

/-! ## Correctness of the naive search loop -/

lemma find_range_eq_none (p : Nat → Bool) (n : Nat) :
    (List.range n).find? p = none ↔ ∀ y, y < n → p y = false := by
  rw [List.find?_eq_none]
  constructor
  · intro hall y hy
    have h1 := hall y (List.mem_range.mpr hy)
    simpa using h1
  · intro hall x hx
    simp [hall x (List.mem_range.mp hx)]

lemma find_range_eq_some (p : Nat → Bool) :
    ∀ n x, ((List.range n).find? p = some x ↔
      x < n ∧ p x = true ∧ ∀ y, y < x → p y = false) := by
  intro n
  induction n with
  | zero => intro x; simp
  | succ k ih =>
    intro x
    rw [List.range_succ, List.find?_append]
    cases hfind : (List.range k).find? p with
    | some z =>
      have hz := (ih z).mp hfind
      have hor : (some z).or (List.find? p [k]) = some z := by simp [Option.or]
      rw [hor]
      constructor
      · intro hzx
        have hzx2 : z = x := by simpa using hzx
        subst hzx2
        exact ⟨by omega, hz.2.1, hz.2.2⟩
      · rintro ⟨hx1, hx2, hx3⟩
        have hzx : z = x := by
          by_contra hne
          rcases Nat.lt_or_ge z x with hlt | hge
          · have h1 := hx3 z hlt
            rw [hz.2.1] at h1
            exact absurd h1 (by simp)
          · have hxz : x < z := by omega
            have h1 := hz.2.2 x hxz
            rw [hx2] at h1
            exact absurd h1 (by simp)
        rw [hzx]
    | none =>
      have hor : (Option.none).or (List.find? p [k]) = List.find? p [k] := by
        simp [Option.or]
      rw [hor]
      have hnone := (find_range_eq_none p k).mp hfind
      by_cases hpk : p k = true
      · rw [List.find?_cons_of_pos _ hpk]
        constructor
        · intro hkx
          have hkx2 : k = x := by simpa using hkx
          subst hkx2
          exact ⟨by omega, hpk, hnone⟩
        · rintro ⟨hx1, hx2, hx3⟩
          have hxk : x = k := by
            by_contra hne
            have hxlt : x < k := by omega
            have h1 := hnone x hxlt
            rw [hx2] at h1
            exact absurd h1 (by simp)
          rw [hxk]
      · rw [List.find?_cons_of_neg _ (by simpa using hpk)]
        constructor
        · intro h1
          exact absurd h1 (by simp)
        · rintro ⟨hx1, hx2, hx3⟩
          exfalso
          by_cases hxk : x = k
          · subst hxk
            exact hpk hx2
          · have hxlt : x < k := by omega
            have h1 := hnone x hxlt
            rw [hx2] at h1
            exact absurd h1 (by simp)

/-- The inner comparison loop of `rb_search` at a candidate position agrees
with `occursAt` on the logical content. -/
lemma search_match_iff (rb : RingBuf) (h : rb_inv rb) (pat : List Nat) (pos : Nat)
    (hpos : pos + pat.length ≤ rb.size) :
    ((List.range pat.length).all
        (fun k => rb_at rb (pos + k) == pat.getD k 0)) = true
      ↔ occursAt (rb_content rb) pat pos := by
  rw [List.all_eq_true]
  constructor
  · intro hall
    refine ⟨by rw [rb_content_length]; exact hpos, ?_⟩
    apply list_eq_of_getD
    · rw [List.length_take, List.length_drop, rb_content_length]; omega
    · intro k hk
      rw [List.length_take, List.length_drop, rb_content_length] at hk
      have hk' : k < pat.length := by omega
      have h1 := hall k (List.mem_range.mpr hk')
      simp only [beq_iff_eq] at h1
      rw [getD_take_drop (rb_content rb) pos pat.length k hk',
        rb_content_getD rb (pos + k) (by omega)]
      exact h1
  · rintro ⟨hlen, heq⟩
    intro k hk
    have hk' : k < pat.length := List.mem_range.mp hk
    have h2 := congrArg (fun l => l.getD k 0) heq
    simp only at h2
    rw [getD_take_drop (rb_content rb) pos pat.length k hk',
      rb_content_getD rb (pos + k) (by omega)] at h2
    simp only [beq_iff_eq]
    exact h2

/-- `rb_search` returns `some x` exactly for the lowest matching offset. -/
lemma rb_search_some_iff (rb : RingBuf) (h : rb_inv rb) (pat : List Nat) (x : Nat) :
    rb_search rb (some pat) pat.length = some x ↔
      occursAt (rb_content rb) pat x ∧
        ∀ y, y < x → ¬ occursAt (rb_content rb) pat y := by
  obtain ⟨hsome, hlen0, hcpos, hszle, hhead, htail, hteq⟩ := id h
  obtain ⟨d, hd⟩ := Option.isSome_iff_exists.mp hsome
  by_cases hm : pat.length = 0
  · have hpat : pat = [] := List.length_eq_zero.mp hm
    subst hpat
    have hres : rb_search rb (some []) (0 : Nat) = some 0 := by
      simp [rb_search, hd]
    rw [hm, hres]
    constructor
    · intro hx
      have hx0 : x = 0 := by simpa using hx.symm
      subst hx0
      exact ⟨⟨by simp, by simp⟩, by omega⟩
    · rintro ⟨ho, hmin⟩
      by_cases hx0 : x = 0
      · rw [hx0]
      · exfalso
        exact hmin 0 (by omega) ⟨by simp, by simp⟩
  · by_cases hsz : rb.size < pat.length
    · have hres : rb_search rb (some pat) pat.length = none := by
        simp [rb_search, hd, hm, hsz]
      rw [hres]
      constructor
      · intro hx
        exact absurd hx (by simp)
      · rintro ⟨ho, hmin⟩
        exfalso
        have h1 := ho.1
        rw [rb_content_length] at h1
        omega
    · have hres : rb_search rb (some pat) pat.length =
          (List.range (rb.size - pat.length + 1)).find? (fun pos =>
            (List.range pat.length).all
              (fun k => rb_at rb (pos + k) == pat.getD k 0)) := by
        simp [rb_search, hd, hm, hsz]
      rw [hres, find_range_eq_some]
      constructor
      · rintro ⟨hx1, hx2, hx3⟩
        have hxm : x + pat.length ≤ rb.size := by omega
        refine ⟨(search_match_iff rb h pat x hxm).mp hx2, ?_⟩
        intro y hy ho
        have hym : y + pat.length ≤ rb.size := by omega
        have h1 := (search_match_iff rb h pat y hym).mpr ho
        rw [hx3 y hy] at h1
        exact absurd h1 (by simp)
      · rintro ⟨ho, hmin⟩
        have hxm : x + pat.length ≤ rb.size := by
          have h1 := ho.1
          rw [rb_content_length] at h1
          exact h1
        refine ⟨by omega, (search_match_iff rb h pat x hxm).mpr ho, ?_⟩
        intro y hy
        have hym : y + pat.length ≤ rb.size := by omega
        by_cases hp : (List.range pat.length).all
            (fun k => rb_at rb (y + k) == pat.getD k 0) = true
        · exact absurd ((search_match_iff rb h pat y hym).mp hp) (hmin y hy)
        · simpa using hp

/-- `rb_search` returns `none` exactly when no offset matches. -/
lemma rb_search_none_iff (rb : RingBuf) (h : rb_inv rb) (pat : List Nat) :
    rb_search rb (some pat) pat.length = none ↔
      ∀ y, ¬ occursAt (rb_content rb) pat y := by
  obtain ⟨hsome, hlen0, hcpos, hszle, hhead, htail, hteq⟩ := id h
  obtain ⟨d, hd⟩ := Option.isSome_iff_exists.mp hsome
  by_cases hm : pat.length = 0
  · have hpat : pat = [] := List.length_eq_zero.mp hm
    subst hpat
    have hres : rb_search rb (some []) (0 : Nat) = some 0 := by
      simp [rb_search, hd]
    rw [hm, hres]
    constructor
    · intro hx
      exact absurd hx (by simp)
    · intro hall
      exact absurd (hall 0 ⟨by simp, by simp⟩) (by simp)
  · by_cases hsz : rb.size < pat.length
    · have hres : rb_search rb (some pat) pat.length = none := by
        simp [rb_search, hd, hm, hsz]
      rw [hres]
      constructor
      · intro _ y ho
        have h1 := ho.1
        rw [rb_content_length] at h1
        omega
      · intro _
        rfl
    · have hres : rb_search rb (some pat) pat.length =
          (List.range (rb.size - pat.length + 1)).find? (fun pos =>
            (List.range pat.length).all
              (fun k => rb_at rb (pos + k) == pat.getD k 0)) := by
        simp [rb_search, hd, hm, hsz]
      rw [hres, find_range_eq_none]
      constructor
      · intro hall y ho
        have hym : y + pat.length ≤ rb.size := by
          have h1 := ho.1
          rw [rb_content_length] at h1
          exact h1
        have h1 := (search_match_iff rb h pat y hym).mpr ho
        rw [hall y (by omega)] at h1
        exact absurd h1 (by simp)
      · intro hall y hy
        have hym : y + pat.length ≤ rb.size := by omega
        by_cases hp : (List.range pat.length).all
            (fun k => rb_at rb (y + k) == pat.getD k 0) = true
        · exact absurd ((search_match_iff rb h pat y hym).mp hp) (hall y)
        · simpa using hp

/-! ## Eviction loop and `rb_push_overwrite` -/

/-- `rb_push_spec` restated for an explicitly given byte count. -/
lemma rb_push_spec' (rb : RingBuf) (h : rb_inv rb) (s : List Nat) (n : Nat)
    (hn : n = s.length) (hfit : s.length ≤ rb.cap - rb.size) :
    (rb_push rb (some s) n).2 = s.length ∧
    rb_inv (rb_push rb (some s) n).1 ∧
    rb_content (rb_push rb (some s) n).1 = rb_content rb ++ s ∧
    (rb_push rb (some s) n).1.cap = rb.cap ∧
    (rb_push rb (some s) n).1.size = rb.size + s.length ∧
    (rb_push rb (some s) n).1.head = rb.head := by
  subst hn
  exact rb_push_spec rb h s hfit

lemma evictFuel_spec : ∀ (fuel : Nat) (rb : RingBuf) (need drop : Nat),
    rb_inv rb → need ≤ rb.size → need ≤ fuel →
    (evictFuel fuel rb need drop).2 = drop + need ∧
    rb_inv (evictFuel fuel rb need drop).1 ∧
    rb_content (evictFuel fuel rb need drop).1 = (rb_content rb).drop need ∧
    (evictFuel fuel rb need drop).1.cap = rb.cap ∧
    (evictFuel fuel rb need drop).1.size = rb.size - need := by
  intro fuel
  induction fuel with
  | zero =>
    intro rb need drop hinv hns hnf
    have h0 : need = 0 := by omega
    subst h0
    exact ⟨by simp [evictFuel], hinv, by simp [evictFuel], by simp [evictFuel],
      by simp [evictFuel]⟩
  | succ k ih =>
    intro rb need drop hinv hns hnf
    by_cases hn0 : need = 0
    · subst hn0
      have hres : evictFuel (k + 1) rb 0 drop = (rb, drop) := by
        simp [evictFuel]
      rw [hres]
      exact ⟨by simp, hinv, by simp, rfl, by simp⟩
    · have hpop := rb_pop_spec rb hinv (min need 1024)
      have hstep : min (min need 1024) rb.size = min need 1024 := by omega
      have hgot : (rb_pop rb true (min need 1024)).2.length = min need 1024 := by
        rw [hpop.2.2.2.2.2.2, hstep]
      have hgotpos : ¬ (rb_pop rb true (min need 1024)).2.length = 0 := by
        rw [hgot]; omega
      have hres : evictFuel (k + 1) rb need drop =
          evictFuel k (rb_pop rb true (min need 1024)).1
            (need - (rb_pop rb true (min need 1024)).2.length)
            (drop + (rb_pop rb true (min need 1024)).2.length) := by
        simp only [evictFuel]
        rw [if_neg hn0, if_neg hgotpos]
      rw [hres, hgot]
      have hsz1 : (rb_pop rb true (min need 1024)).1.size
          = rb.size - min need 1024 := by
        rw [hpop.2.2.2.2.1, hstep]
      have hih := ih (rb_pop rb true (min need 1024)).1 (need - min need 1024)
        (drop + min need 1024) hpop.2.1 (by omega) (by omega)
      refine ⟨?_, hih.2.1, ?_, ?_, ?_⟩
      · rw [hih.1]; omega
      · rw [hih.2.2.1, hpop.2.2.1, hstep, List.drop_drop]
        congr 1
        omega
      · rw [hih.2.2.2.1, hpop.2.2.2.1]
      · rw [hih.2.2.2.2, hsz1]
        omega

/-- Specification of the eviction loop: it removes and counts exactly
`need` oldest bytes (provided `need ≤ size`, as holds at its call site). -/
lemma evict_spec (rb : RingBuf) (h : rb_inv rb) (need drop : Nat)
    (hns : need ≤ rb.size) :
    (evict rb need drop).2 = drop + need ∧ rb_inv (evict rb need drop).1 ∧
    rb_content (evict rb need drop).1 = (rb_content rb).drop need ∧
    (evict rb need drop).1.cap = rb.cap ∧
    (evict rb need drop).1.size = rb.size - need :=
  evictFuel_spec need rb need drop h hns (le_refl _)

/-- Shape of `rb_push_overwrite` in the clear branch (`n ≥ cap`). -/
lemma rb_push_overwrite_ge (rb : RingBuf) (src : List Nat) (n drop : Nat)
    (hn : rb.cap ≤ n) :
    rb_push_overwrite rb src n drop =
      ((rb_push (rb_clear rb) (some (src.drop (n - rb.cap))) rb.cap).1,
       drop + (n - rb.cap)) := by
  simp only [rb_push_overwrite, if_pos hn]

/-- Shape of `rb_push_overwrite` in the eviction branch
(`n < cap`, `n > free_space`). -/
lemma rb_push_overwrite_lt (rb : RingBuf) (src : List Nat) (n drop : Nat)
    (hn : ¬ rb.cap ≤ n) (hfree : rb_free_space rb < n) :
    rb_push_overwrite rb src n drop =
      ((rb_push (evict rb (n - rb_free_space rb) drop).1 (some src) n).1,
       (evict rb (n - rb_free_space rb) drop).2) := by
  rcases hev : evict rb (n - rb_free_space rb) drop with ⟨rb1, drop1⟩
  simp only [rb_push_overwrite, if_neg hn, if_pos hfree, hev]

/-- Shape of `rb_push_overwrite` in the plain branch (the input fits). -/
lemma rb_push_overwrite_fits (rb : RingBuf) (src : List Nat) (n drop : Nat)
    (hn : ¬ rb.cap ≤ n) (hfree : ¬ rb_free_space rb < n) :
    rb_push_overwrite rb src n drop = ((rb_push rb (some src) n).1, drop) := by
  simp only [rb_push_overwrite, if_neg hn, if_neg hfree]

/-- `rb_push` preserves the invariant and the capacity for every source and
count (including truncating writes and ill-formed arguments). -/
lemma rb_push_inv (rb : RingBuf) (h : rb_inv rb) (src : Option (List Nat)) (n : Nat) :
    rb_inv (rb_push rb src n).1 ∧ (rb_push rb src n).1.cap = rb.cap := by
  obtain ⟨hsome, hlen0, hcpos, hszle, hhead, htail, hteq⟩ := id h
  obtain ⟨d, hd⟩ := Option.isSome_iff_exists.mp hsome
  rw [hd] at hlen0
  simp only [Option.getD_some] at hlen0
  have hcne : rb.cap ≠ 0 := hcpos.ne'
  cases src with
  | none =>
    have hres : rb_push rb none n = (rb, 0) := by simp [rb_push, hd]
    rw [hres]
    exact ⟨h, rfl⟩
  | some s =>
    by_cases hn0 : n = 0
    · subst hn0
      have hres : rb_push rb (some s) 0 = (rb, 0) := by simp [rb_push, hd]
      rw [hres]
      exact ⟨h, rfl⟩
    · by_cases hfree : rb.cap - rb.size = 0
      · have hres : rb_push rb (some s) n = (rb, 0) := by
          simp [rb_push, hd, rb_free_space, hn0, hfree]
        rw [hres]
        exact ⟨h, rfl⟩
      · rw [rb_push_eq rb d hd s n hn0 hfree]
        set m := min n (rb.cap - rb.size) with hmdef
        set f := min (rb.cap - rb.tail) m with hfdef
        have hseg1 : rb.tail + (s.take f).length ≤ d.length := by
          rw [List.length_take]; omega
        have hlen1 : (copyInto d rb.tail (s.take f)).length = rb.cap := by
          rw [copyInto_length _ _ _ hseg1]; exact hlen0
        have hDlen : (if m - f > 0
            then copyInto (copyInto d rb.tail (s.take f)) 0 ((s.drop f).take (m - f))
            else copyInto d rb.tail (s.take f)).length = rb.cap := by
          split_ifs
          · rw [copyInto_length _ _ 0
              (by rw [hlen1, List.length_take, List.length_drop]; omega)]
            exact hlen1
          · exact hlen1
        refine ⟨⟨rfl, by simpa using hDlen, hcpos, ?_, hhead, ?_, ?_⟩, rfl⟩
        · show rb.size + m ≤ rb.cap
          omega
        · show rb_mod (rb.tail + m) rb.cap < rb.cap
          simp only [rb_mod, if_neg hcne]
          exact Nat.mod_lt _ hcpos
        · show rb_mod (rb.tail + m) rb.cap = (rb.head + (rb.size + m)) % rb.cap
          simp only [rb_mod, if_neg hcne, hteq, Nat.mod_add_mod]
          congr 1
          omega

/-- `rb_pop` preserves the invariant and the capacity for every destination
and count. -/
lemma rb_pop_inv (rb : RingBuf) (h : rb_inv rb) (dst : Bool) (n : Nat) :
    rb_inv (rb_pop rb dst n).1 ∧ (rb_pop rb dst n).1.cap = rb.cap := by
  obtain ⟨hsome, hlen0, hcpos, hszle, hhead, htail, hteq⟩ := id h
  obtain ⟨d, hd⟩ := Option.isSome_iff_exists.mp hsome
  cases dst with
  | false =>
    have hres : rb_pop rb false n = (rb, []) := by simp [rb_pop, hd]
    rw [hres]
    exact ⟨h, rfl⟩
  | true =>
    exact ⟨(rb_pop_spec rb h n).2.1, (rb_pop_spec rb h n).2.2.2.1⟩

/-- `rb_push_overwrite` preserves the invariant and the capacity for every
source, count and counter value. -/
lemma rb_push_overwrite_inv (rb : RingBuf) (h : rb_inv rb) (src : List Nat)
    (n drop : Nat) :
    rb_inv (rb_push_overwrite rb src n drop).1 ∧
    (rb_push_overwrite rb src n drop).1.cap = rb.cap := by
  by_cases h1 : rb.cap ≤ n
  · rw [rb_push_overwrite_ge rb src n drop h1]
    have hc := rb_clear_spec rb h
    have hp := rb_push_inv (rb_clear rb) hc.1 (some (src.drop (n - rb.cap))) rb.cap
    exact ⟨hp.1, by rw [hp.2, hc.2.2.1]⟩
  · by_cases h2 : rb_free_space rb < n
    · rw [rb_push_overwrite_lt rb src n drop h1 h2]
      have hns : n - rb_free_space rb ≤ rb.size := by
        have h3 := h.2.2.2.1
        simp only [rb_free_space]
        omega
      have hev := evict_spec rb h (n - rb_free_space rb) drop hns
      have hp := rb_push_inv (evict rb (n - rb_free_space rb) drop).1 hev.2.1 (some src) n
      exact ⟨hp.1, by rw [hp.2, hev.2.2.2.1]⟩
    · rw [rb_push_overwrite_fits rb src n drop h1 h2]
      exact rb_push_inv rb h (some src) n

/-- Content-level specification of the clear branch of `rb_push_overwrite`:
exactly the last `cap` bytes of the input are stored, the buffer is full,
and the counter grew by the surplus. -/
lemma rb_push_overwrite_ge_spec (rb : RingBuf) (h : rb_inv rb) (s : List Nat)
    (drop : Nat) (hn : rb.cap ≤ s.length) :
    (rb_push_overwrite rb s s.length drop).1.size = rb.cap ∧
    (rb_push_overwrite rb s s.length drop).1.cap = rb.cap ∧
    rb_content (rb_push_overwrite rb s s.length drop).1 =
      s.drop (s.length - rb.cap) ∧
    (rb_push_overwrite rb s s.length drop).2 = drop + (s.length - rb.cap) ∧
    rb_inv (rb_push_overwrite rb s s.length drop).1 := by
  rw [rb_push_overwrite_ge rb s s.length drop hn]
  have hclear := rb_clear_spec rb h
  have hplen : (s.drop (s.length - rb.cap)).length = rb.cap := by
    rw [List.length_drop]; omega
  have hfit : (s.drop (s.length - rb.cap)).length
      ≤ (rb_clear rb).cap - (rb_clear rb).size := by
    rw [hplen, hclear.2.2.1, hclear.2.1]
    omega
  have hpush := rb_push_spec' (rb_clear rb) hclear.1 (s.drop (s.length - rb.cap))
    rb.cap hplen.symm hfit
  refine ⟨?_, ?_, ?_, rfl, hpush.2.1⟩
  · rw [hpush.2.2.2.2.1, hclear.2.1, hplen]
    omega
  · rw [hpush.2.2.2.1, hclear.2.2.1]
  · rw [hpush.2.2.1, hclear.2.2.2.1, List.nil_append]

/-- Content-level specification of the eviction branch of
`rb_push_overwrite`: exactly `n - free_space` oldest bytes are discarded and
counted, and the whole input is appended untruncated. -/
lemma rb_push_overwrite_evict_spec (rb : RingBuf) (h : rb_inv rb) (s : List Nat)
    (drop : Nat) (hlt : s.length < rb.cap) (hfree : rb.cap - rb.size < s.length) :
    (rb_push_overwrite rb s s.length drop).2 =
      drop + (s.length - (rb.cap - rb.size)) ∧
    rb_content (rb_push_overwrite rb s s.length drop).1 =
      (rb_content rb).drop (s.length - (rb.cap - rb.size)) ++ s ∧
    (rb_push_overwrite rb s s.length drop).1.size = rb.cap ∧
    (rb_push_overwrite rb s s.length drop).1.cap = rb.cap ∧
    rb_inv (rb_push_overwrite rb s s.length drop).1 := by
  have hszle : rb.size ≤ rb.cap := h.2.2.2.1
  have hfs : rb_free_space rb = rb.cap - rb.size := rfl
  rw [rb_push_overwrite_lt rb s s.length drop (by omega) (by rw [hfs]; omega)]
  have hns : s.length - rb_free_space rb ≤ rb.size := by rw [hfs]; omega
  have hev := evict_spec rb h (s.length - rb_free_space rb) drop hns
  have hfit : s.length ≤ (evict rb (s.length - rb_free_space rb) drop).1.cap
      - (evict rb (s.length - rb_free_space rb) drop).1.size := by
    rw [hev.2.2.2.1, hev.2.2.2.2, hfs]
    omega
  have hpush := rb_push_spec' (evict rb (s.length - rb_free_space rb) drop).1
    hev.2.1 s s.length rfl hfit
  refine ⟨?_, ?_, ?_, ?_, hpush.2.1⟩
  · rw [hev.1, hfs]
  · rw [hpush.2.2.1, hev.2.2.1, hfs]
  · rw [hpush.2.2.2.2.1, hev.2.2.2.2, hfs]
    omega
  · rw [hpush.2.2.2.1, hev.2.2.2.1]

/-- The dropped-byte counter after one `rb_push_overwrite` call, in every
branch: the surplus `n - cap` in the clear branch (bytes discarded by
`rb_clear` are not counted there), the evicted `n - free_space` bytes in the
eviction branch, and nothing in the plain branch. -/
lemma rb_push_overwrite_drop (rb : RingBuf) (h : rb_inv rb) (s : List Nat)
    (drop : Nat) :
    (rb_push_overwrite rb s s.length drop).2 =
      if rb.cap ≤ s.length then drop + (s.length - rb.cap)
      else if rb.cap - rb.size < s.length then
        drop + (s.length - (rb.cap - rb.size))
      else drop := by
  have hszle : rb.size ≤ rb.cap := h.2.2.2.1
  have hfs : rb_free_space rb = rb.cap - rb.size := rfl
  by_cases h1 : rb.cap ≤ s.length
  · rw [rb_push_overwrite_ge rb s s.length drop h1, if_pos h1]
  · rw [if_neg h1]
    by_cases h2 : rb.cap - rb.size < s.length
    · rw [if_pos h2, rb_push_overwrite_lt rb s s.length drop h1 (by rw [hfs]; omega)]
      have hev := evict_spec rb h (s.length - rb_free_space rb) drop (by rw [hfs]; omega)
      rw [hev.1, hfs]
    · rw [if_neg h2, rb_push_overwrite_fits rb s s.length drop h1 (by rw [hfs]; omega)]

/-- Pushing a sequence of byte strings that fits in the remaining free space:
every call reports a full write and the contents concatenate in order. -/
lemma pushAll_spec : ∀ (ws : List (List Nat)) (rb : RingBuf), rb_inv rb →
    (ws.map List.length).sum ≤ rb.cap - rb.size →
    (pushAll rb ws).2 = ws.map List.length ∧
    rb_inv (pushAll rb ws).1 ∧
    rb_content (pushAll rb ws).1 = rb_content rb ++ ws.join ∧
    (pushAll rb ws).1.cap = rb.cap ∧
    (pushAll rb ws).1.size = rb.size + (ws.map List.length).sum := by
  intro ws
  induction ws with
  | nil =>
    intro rb hinv hsum
    exact ⟨rfl, hinv, by simp [pushAll], rfl, by simp [pushAll]⟩
  | cons w rest ih =>
    intro rb hinv hsum
    simp only [List.map_cons, List.sum_cons] at hsum
    have hfit : w.length ≤ rb.cap - rb.size := by omega
    have hpush := rb_push_spec rb hinv w hfit
    have hrest : (rest.map List.length).sum ≤
        (rb_push rb (some w) w.length).1.cap - (rb_push rb (some w) w.length).1.size := by
      rw [hpush.2.2.2.1, hpush.2.2.2.2.1]
      omega
    have hih := ih (rb_push rb (some w) w.length).1 hpush.2.1 hrest
    have hres : pushAll rb (w :: rest) =
        ((pushAll (rb_push rb (some w) w.length).1 rest).1,
         (rb_push rb (some w) w.length).2 ::
           (pushAll (rb_push rb (some w) w.length).1 rest).2) := by
      simp only [pushAll]
    rw [hres]
    refine ⟨?_, hih.2.1, ?_, ?_, ?_⟩
    · simp only [List.map_cons]
      rw [hih.1, hpush.1]
    · rw [hih.2.2.1, hpush.2.2.1]
      simp [List.append_assoc]
    · rw [hih.2.2.2.1, hpush.2.2.2.1]
    · simp only [List.map_cons, List.sum_cons]
      rw [hih.2.2.2.2, hpush.2.2.2.2.1]
      omega

/-! ## Reachability of the state invariant -/

/-- Each interface call preserves the state invariant. -/
lemma rb_apply_inv (rb : RingBuf) (h : rb_inv rb) (op : RbOp) :
    rb_inv (rb_apply rb op) := by
  cases op with
  | push src n => exact (rb_push_inv rb h src n).1
  | pop dst n => exact (rb_pop_inv rb h dst n).1
  | clear => exact (rb_clear_spec rb h).1
  | pushOverwrite src n => exact (rb_push_overwrite_inv rb h src n 0).1

/-- The state invariant is preserved along any call sequence. -/
lemma foldl_rb_apply_inv : ∀ (ops : List RbOp) (rb : RingBuf), rb_inv rb →
    rb_inv (ops.foldl rb_apply rb) := by
  intro ops
  induction ops with
  | nil => intro rb h; exact h
  | cons op rest ih =>
    intro rb h
    rw [List.foldl_cons]
    exact ih _ (rb_apply_inv rb h op)

/-! ## Claim theorems -/

/-- C1: FIFO round trip. From a freshly initialized buffer, for every
sequence of `rb_push` calls whose total requested length is at most the
capacity, every push writes its full input, `used()` after the sequence
equals the sum of the bytes written, and popping `used()` bytes returns
exactly the concatenation of the pushed byte strings in push order. -/
theorem C1_fifo_roundtrip (cap : Nat) (rb0 : RingBuf) (hinit : rb_init cap = some rb0)
    (ws : List (List Nat)) (hlen : (ws.map List.length).sum ≤ cap) :
    (pushAll rb0 ws).2 = ws.map List.length ∧
    rb_size (pushAll rb0 ws).1 = (ws.map List.length).sum ∧
    (rb_pop (pushAll rb0 ws).1 true (rb_size (pushAll rb0 ws).1)).2 = ws.join := by
  obtain ⟨hinv0, hcap0, hsz0, hcont0⟩ := rb_init_spec cap rb0 hinit
  have hfit : (ws.map List.length).sum ≤ rb0.cap - rb0.size := by omega
  have hall := pushAll_spec ws rb0 hinv0 hfit
  have hsz : rb_size (pushAll rb0 ws).1 = (ws.map List.length).sum := by
    simp only [rb_size]
    rw [hall.2.2.2.2, hsz0]
    omega
  refine ⟨hall.1, hsz, ?_⟩
  have hpop := rb_pop_spec (pushAll rb0 ws).1 hall.2.1 (rb_size (pushAll rb0 ws).1)
  rw [hpop.1]
  have hcont : rb_content (pushAll rb0 ws).1 = ws.join := by
    rw [hall.2.2.1, hcont0, List.nil_append]
  simp only [rb_size, min_self]
  rw [← rb_content_length (pushAll rb0 ws).1, List.take_length, hcont]

/-- Witness for C1 at capacity 4 with pushes `[1,2]` then `[3]`. -/
theorem C1_fifo_roundtrip_witness :
    rb_init 4 = some (⟨some [0, 0, 0, 0], 4, 0, 0, 0⟩ : RingBuf) ∧
    (([[1, 2], [3]] : List (List Nat)).map List.length).sum ≤ 4 ∧
    ((pushAll ⟨some [0, 0, 0, 0], 4, 0, 0, 0⟩ [[1, 2], [3]]).2
        = ([[1, 2], [3]] : List (List Nat)).map List.length ∧
      rb_size (pushAll ⟨some [0, 0, 0, 0], 4, 0, 0, 0⟩ [[1, 2], [3]]).1 = 3 ∧
      (rb_pop (pushAll ⟨some [0, 0, 0, 0], 4, 0, 0, 0⟩ [[1, 2], [3]]).1 true
          (rb_size (pushAll ⟨some [0, 0, 0, 0], 4, 0, 0, 0⟩ [[1, 2], [3]]).1)).2
        = [1, 2, 3]) := by
  refine ⟨by decide, by decide, ?_⟩
  have h := C1_fifo_roundtrip 4 ⟨some [0, 0, 0, 0], 4, 0, 0, 0⟩ (by decide)
    [[1, 2], [3]] (by decide)
  exact ⟨h.1, h.2.1, h.2.2⟩

/-- C2: `rb_push_overwrite` with input length `≥ capacity`. After the call
`used()` equals `capacity()`, the logical content is exactly the last
`capacity()` bytes of the input, and the dropped-bytes counter grows by
exactly `n - capacity()`. -/
theorem C2_overwrite_ge_cap (rb : RingBuf) (h : rb_inv rb) (s : List Nat) (drop : Nat)
    (hn : rb_capacity rb ≤ s.length) :
    rb_size (rb_push_overwrite rb s s.length drop).1
      = rb_capacity (rb_push_overwrite rb s s.length drop).1 ∧
    rb_content (rb_push_overwrite rb s s.length drop).1
      = s.drop (s.length - rb_capacity rb) ∧
    (rb_push_overwrite rb s s.length drop).2 = drop + (s.length - rb_capacity rb) := by
  have hspec := rb_push_overwrite_ge_spec rb h s drop hn
  refine ⟨?_, hspec.2.2.1, hspec.2.2.2.1⟩
  simp only [rb_size, rb_capacity]
  rw [hspec.1, hspec.2.1]

/-- Witness for C2: capacity 2 holding one byte, three-byte input. -/
theorem C2_overwrite_ge_cap_witness :
    rb_inv (⟨some [7, 0], 2, 0, 1, 1⟩ : RingBuf) ∧
    rb_capacity (⟨some [7, 0], 2, 0, 1, 1⟩ : RingBuf) ≤ ([1, 2, 3] : List Nat).length ∧
    (rb_size (rb_push_overwrite ⟨some [7, 0], 2, 0, 1, 1⟩ [1, 2, 3]
          ([1, 2, 3] : List Nat).length 5).1
        = rb_capacity (rb_push_overwrite ⟨some [7, 0], 2, 0, 1, 1⟩ [1, 2, 3]
          ([1, 2, 3] : List Nat).length 5).1 ∧
      rb_content (rb_push_overwrite ⟨some [7, 0], 2, 0, 1, 1⟩ [1, 2, 3]
          ([1, 2, 3] : List Nat).length 5).1
        = ([1, 2, 3] : List Nat).drop (([1, 2, 3] : List Nat).length
            - rb_capacity (⟨some [7, 0], 2, 0, 1, 1⟩ : RingBuf)) ∧
      (rb_push_overwrite ⟨some [7, 0], 2, 0, 1, 1⟩ [1, 2, 3]
          ([1, 2, 3] : List Nat).length 5).2
        = 5 + (([1, 2, 3] : List Nat).length
            - rb_capacity (⟨some [7, 0], 2, 0, 1, 1⟩ : RingBuf))) :=
  ⟨by decide, by decide,
    C2_overwrite_ge_cap ⟨some [7, 0], 2, 0, 1, 1⟩ (by decide) [1, 2, 3] 5 (by decide)⟩

/-- C3: `rb_push_overwrite` with input length below the capacity but above
the free space. Exactly `n - free_space()` oldest bytes are discarded from
the front and counted as dropped, and the entire input is then written
untruncated behind the survivors (no byte of the input is dropped). -/
theorem C3_overwrite_evicts_front (rb : RingBuf) (h : rb_inv rb) (s : List Nat)
    (drop : Nat) (hlt : s.length < rb_capacity rb)
    (hfree : rb_free_space rb < s.length) :
    (rb_push_overwrite rb s s.length drop).2
      = drop + (s.length - rb_free_space rb) ∧
    rb_content (rb_push_overwrite rb s s.length drop).1
      = (rb_content rb).drop (s.length - rb_free_space rb) ++ s ∧
    rb_size (rb_push_overwrite rb s s.length drop).1
      = rb_capacity (rb_push_overwrite rb s s.length drop).1 := by
  have hspec := rb_push_overwrite_evict_spec rb h s drop hlt hfree
  refine ⟨hspec.1, hspec.2.1, ?_⟩
  simp only [rb_size, rb_capacity]
  rw [hspec.2.2.1, hspec.2.2.2.1]

/-- Witness for C3: capacity 3 holding two bytes, two-byte input evicts one. -/
theorem C3_overwrite_evicts_front_witness :
    rb_inv (⟨some [7, 8, 0], 3, 0, 2, 2⟩ : RingBuf) ∧
    ([1, 2] : List Nat).length < rb_capacity (⟨some [7, 8, 0], 3, 0, 2, 2⟩ : RingBuf) ∧
    rb_free_space (⟨some [7, 8, 0], 3, 0, 2, 2⟩ : RingBuf) < ([1, 2] : List Nat).length ∧
    ((rb_push_overwrite ⟨some [7, 8, 0], 3, 0, 2, 2⟩ [1, 2]
          ([1, 2] : List Nat).length 0).2
        = 0 + (([1, 2] : List Nat).length
            - rb_free_space (⟨some [7, 8, 0], 3, 0, 2, 2⟩ : RingBuf)) ∧
      rb_content (rb_push_overwrite ⟨some [7, 8, 0], 3, 0, 2, 2⟩ [1, 2]
          ([1, 2] : List Nat).length 0).1
        = (rb_content ⟨some [7, 8, 0], 3, 0, 2, 2⟩).drop
            (([1, 2] : List Nat).length
              - rb_free_space (⟨some [7, 8, 0], 3, 0, 2, 2⟩ : RingBuf)) ++ [1, 2] ∧
      rb_size (rb_push_overwrite ⟨some [7, 8, 0], 3, 0, 2, 2⟩ [1, 2]
          ([1, 2] : List Nat).length 0).1
        = rb_capacity (rb_push_overwrite ⟨some [7, 8, 0], 3, 0, 2, 2⟩ [1, 2]
          ([1, 2] : List Nat).length 0).1) :=
  ⟨by decide, by decide, by decide,
    C3_overwrite_evicts_front ⟨some [7, 8, 0], 3, 0, 2, 2⟩ (by decide) [1, 2] 0
      (by decide) (by decide)⟩

/-- C4 counterexample: a capacity-2 buffer holding the single byte `7`
receives a 2-byte overwrite. The stored byte is discarded by the
`rb_clear` of the `n ≥ cap` branch — one byte of previously stored data is
lost — yet the dropped-bytes counter grows by `n - cap = 0`, not by 1. So
the counter does not count bytes discarded by the clear branch, refuting
the claim that every byte lost by the call is counted. -/
theorem C4_drop_counterexample :
    rb_inv (⟨some [7, 0], 2, 0, 1, 1⟩ : RingBuf) ∧
    rb_size (⟨some [7, 0], 2, 0, 1, 1⟩ : RingBuf) = 1 ∧
    rb_content ⟨some [7, 0], 2, 0, 1, 1⟩ = [7] ∧
    rb_content (rb_push_overwrite ⟨some [7, 0], 2, 0, 1, 1⟩ [1, 2] 2 0).1 = [1, 2] ∧
    (rb_push_overwrite ⟨some [7, 0], 2, 0, 1, 1⟩ [1, 2] 2 0).2 = 0 := by
  decide

/-- C4 (amended): the dropped-bytes counter after one `rb_push_overwrite`
call grows by exactly `n - capacity()` in the `n ≥ capacity` branch (the
previously stored bytes discarded there by `rb_clear` are not counted), by
exactly the `n - free_space()` evicted bytes in the eviction branch, and by
nothing in the plain branch. -/
theorem C4_amended_drop_accounting (rb : RingBuf) (h : rb_inv rb) (s : List Nat)
    (drop : Nat) :
    (rb_push_overwrite rb s s.length drop).2 =
      if rb_capacity rb ≤ s.length then drop + (s.length - rb_capacity rb)
      else if rb_free_space rb < s.length then
        drop + (s.length - rb_free_space rb)
      else drop := by
  simp only [rb_capacity, rb_free_space]
  exact rb_push_overwrite_drop rb h s drop

/-- Witness for the amended C4 at all three branches. -/
theorem C4_amended_drop_accounting_witness :
    rb_inv (⟨some [7, 8, 0], 3, 0, 2, 2⟩ : RingBuf) ∧
    (rb_push_overwrite ⟨some [7, 8, 0], 3, 0, 2, 2⟩ [1, 2]
        ([1, 2] : List Nat).length 0).2 =
      (if rb_capacity (⟨some [7, 8, 0], 3, 0, 2, 2⟩ : RingBuf) ≤ ([1, 2] : List Nat).length
       then 0 + (([1, 2] : List Nat).length
          - rb_capacity (⟨some [7, 8, 0], 3, 0, 2, 2⟩ : RingBuf))
       else if rb_free_space (⟨some [7, 8, 0], 3, 0, 2, 2⟩ : RingBuf)
            < ([1, 2] : List Nat).length
       then 0 + (([1, 2] : List Nat).length
          - rb_free_space (⟨some [7, 8, 0], 3, 0, 2, 2⟩ : RingBuf))
       else 0) :=
  ⟨by decide,
    C4_amended_drop_accounting ⟨some [7, 8, 0], 3, 0, 2, 2⟩ (by decide) [1, 2] 0⟩

/-- C5: `rb_search` correctness. For every live buffer and pattern of
length `m`, the search returns `some o` exactly when `o` is the least
logical offset at which the pattern occurs in the logical content, `none`
exactly when it occurs nowhere; an empty pattern matches trivially at
offset 0, and a pattern longer than `used()` never matches. -/
theorem C5_search_correct (rb : RingBuf) (h : rb_inv rb) (pat : List Nat) :
    (∀ x, rb_search rb (some pat) pat.length = some x ↔
      occursAt (rb_content rb) pat x ∧
        ∀ y, y < x → ¬ occursAt (rb_content rb) pat y) ∧
    (rb_search rb (some pat) pat.length = none ↔
      ∀ y, ¬ occursAt (rb_content rb) pat y) ∧
    (pat.length = 0 → rb_search rb (some pat) pat.length = some 0) ∧
    (rb_size rb < pat.length → rb_search rb (some pat) pat.length = none) := by
  obtain ⟨d, hd⟩ := Option.isSome_iff_exists.mp h.1
  refine ⟨fun x => rb_search_some_iff rb h pat x, rb_search_none_iff rb h pat, ?_, ?_⟩
  · intro hm
    simp [rb_search, hd, hm]
  · intro hlt
    have hm : ¬ pat.length = 0 := by
      simp only [rb_size] at hlt
      omega
    simp only [rb_size] at hlt
    simp [rb_search, hd, hm, hlt]

/-- Witness for C5 on a wrapped buffer with content `[3, 9, 8, 7]`. -/
theorem C5_search_correct_witness :
    rb_inv (⟨some [8, 7, 3, 9], 4, 2, 2, 4⟩ : RingBuf) ∧
    ((∀ x, rb_search ⟨some [8, 7, 3, 9], 4, 2, 2, 4⟩ (some [9, 8])
          ([9, 8] : List Nat).length = some x ↔
        occursAt (rb_content ⟨some [8, 7, 3, 9], 4, 2, 2, 4⟩) [9, 8] x ∧
          ∀ y, y < x →
            ¬ occursAt (rb_content ⟨some [8, 7, 3, 9], 4, 2, 2, 4⟩) [9, 8] y) ∧
      (rb_search ⟨some [8, 7, 3, 9], 4, 2, 2, 4⟩ (some [9, 8])
          ([9, 8] : List Nat).length = none ↔
        ∀ y, ¬ occursAt (rb_content ⟨some [8, 7, 3, 9], 4, 2, 2, 4⟩) [9, 8] y) ∧
      (([9, 8] : List Nat).length = 0 →
        rb_search ⟨some [8, 7, 3, 9], 4, 2, 2, 4⟩ (some [9, 8])
          ([9, 8] : List Nat).length = some 0) ∧
      (rb_size (⟨some [8, 7, 3, 9], 4, 2, 2, 4⟩ : RingBuf) < ([9, 8] : List Nat).length →
        rb_search ⟨some [8, 7, 3, 9], 4, 2, 2, 4⟩ (some [9, 8])
          ([9, 8] : List Nat).length = none)) :=
  ⟨by decide, C5_search_correct ⟨some [8, 7, 3, 9], 4, 2, 2, 4⟩ (by decide) [9, 8]⟩

/-- C6: `rb_peek` purity and correctness. It returns zero bytes when the
offset is at or past `used()`, otherwise exactly `min(max_n, used() - k)`
bytes equal to the logical content at offsets `k, k+1, …` (correct across
wraparound), and in all cases leaves the buffer state — and hence every
subsequent `rb_pop` result — unchanged. -/
theorem C6_peek_pure (rb : RingBuf) (h : rb_inv rb) (n k : Nat) :
    (rb_peek rb true n k).1 = rb ∧
    (rb_size rb ≤ k → (rb_peek rb true n k).2 = []) ∧
    (k < rb_size rb → (rb_peek rb true n k).2.length = min n (rb_size rb - k) ∧
      (rb_peek rb true n k).2 = ((rb_content rb).drop k).take n) ∧
    (∀ d m, rb_pop (rb_peek rb true n k).1 d m = rb_pop rb d m) := by
  have hp := rb_peek_spec rb h n k
  simp only [rb_size]
  refine ⟨hp.1, ?_, ?_, ?_⟩
  · intro hk
    rw [hp.2, List.drop_eq_nil_of_le (by rw [rb_content_length]; exact hk),
      List.take_nil]
  · intro hk
    refine ⟨?_, hp.2⟩
    rw [hp.2, List.length_take, List.length_drop, rb_content_length]
  · intro d m
    rw [hp.1]

/-- Witness for C6 on a wrapped buffer, at an in-range and an out-of-range
offset. -/
theorem C6_peek_pure_witness :
    rb_inv (⟨some [8, 7, 3, 9], 4, 2, 2, 4⟩ : RingBuf) ∧
    ((rb_peek ⟨some [8, 7, 3, 9], 4, 2, 2, 4⟩ true 2 1).1
        = (⟨some [8, 7, 3, 9], 4, 2, 2, 4⟩ : RingBuf) ∧
      (rb_size (⟨some [8, 7, 3, 9], 4, 2, 2, 4⟩ : RingBuf) ≤ 1 →
        (rb_peek ⟨some [8, 7, 3, 9], 4, 2, 2, 4⟩ true 2 1).2 = []) ∧
      (1 < rb_size (⟨some [8, 7, 3, 9], 4, 2, 2, 4⟩ : RingBuf) →
        (rb_peek ⟨some [8, 7, 3, 9], 4, 2, 2, 4⟩ true 2 1).2.length
            = min 2 (rb_size (⟨some [8, 7, 3, 9], 4, 2, 2, 4⟩ : RingBuf) - 1) ∧
          (rb_peek ⟨some [8, 7, 3, 9], 4, 2, 2, 4⟩ true 2 1).2
            = ((rb_content ⟨some [8, 7, 3, 9], 4, 2, 2, 4⟩).drop 1).take 2) ∧
      (∀ d m, rb_pop (rb_peek ⟨some [8, 7, 3, 9], 4, 2, 2, 4⟩ true 2 1).1 d m
          = rb_pop ⟨some [8, 7, 3, 9], 4, 2, 2, 4⟩ d m)) :=
  ⟨by decide, C6_peek_pure ⟨some [8, 7, 3, 9], 4, 2, 2, 4⟩ (by decide) 2 1⟩

/-- C7: state invariant. Every buffer produced by a successful `rb_init`
and evolved by any sequence of `rb_push`, `rb_pop`, `rb_clear` and
`rb_push_overwrite` calls satisfies `size ≤ cap`, `head < cap`,
`tail < cap` and `tail = (head + size) % cap`. -/
theorem C7_state_invariant (cap : Nat) (rb0 : RingBuf)
    (hinit : rb_init cap = some rb0) (ops : List RbOp) :
    (ops.foldl rb_apply rb0).size ≤ (ops.foldl rb_apply rb0).cap ∧
    (ops.foldl rb_apply rb0).head < (ops.foldl rb_apply rb0).cap ∧
    (ops.foldl rb_apply rb0).tail < (ops.foldl rb_apply rb0).cap ∧
    (ops.foldl rb_apply rb0).tail =
      ((ops.foldl rb_apply rb0).head + (ops.foldl rb_apply rb0).size) %
        (ops.foldl rb_apply rb0).cap := by
  have hinv := foldl_rb_apply_inv ops rb0 (rb_init_spec cap rb0 hinit).1
  exact ⟨hinv.2.2.2.1, hinv.2.2.2.2.1, hinv.2.2.2.2.2.1, hinv.2.2.2.2.2.2⟩

/-- Witness for C7: capacity 2, a push, an overwrite that clears, a pop and
a clear. -/
theorem C7_state_invariant_witness :
    rb_init 2 = some (⟨some [0, 0], 2, 0, 0, 0⟩ : RingBuf) ∧
    ((([RbOp.push (some [5]) 1, RbOp.pushOverwrite [1, 2, 3] 3,
          RbOp.pop true 1, RbOp.clear]).foldl rb_apply
          ⟨some [0, 0], 2, 0, 0, 0⟩).size ≤
        (([RbOp.push (some [5]) 1, RbOp.pushOverwrite [1, 2, 3] 3,
          RbOp.pop true 1, RbOp.clear]).foldl rb_apply
          ⟨some [0, 0], 2, 0, 0, 0⟩).cap ∧
      (([RbOp.push (some [5]) 1, RbOp.pushOverwrite [1, 2, 3] 3,
          RbOp.pop true 1, RbOp.clear]).foldl rb_apply
          ⟨some [0, 0], 2, 0, 0, 0⟩).head <
        (([RbOp.push (some [5]) 1, RbOp.pushOverwrite [1, 2, 3] 3,
          RbOp.pop true 1, RbOp.clear]).foldl rb_apply
          ⟨some [0, 0], 2, 0, 0, 0⟩).cap ∧
      (([RbOp.push (some [5]) 1, RbOp.pushOverwrite [1, 2, 3] 3,
          RbOp.pop true 1, RbOp.clear]).foldl rb_apply
          ⟨some [0, 0], 2, 0, 0, 0⟩).tail <
        (([RbOp.push (some [5]) 1, RbOp.pushOverwrite [1, 2, 3] 3,
          RbOp.pop true 1, RbOp.clear]).foldl rb_apply
          ⟨some [0, 0], 2, 0, 0, 0⟩).cap ∧
      (([RbOp.push (some [5]) 1, RbOp.pushOverwrite [1, 2, 3] 3,
          RbOp.pop true 1, RbOp.clear]).foldl rb_apply
          ⟨some [0, 0], 2, 0, 0, 0⟩).tail =
        ((([RbOp.push (some [5]) 1, RbOp.pushOverwrite [1, 2, 3] 3,
            RbOp.pop true 1, RbOp.clear]).foldl rb_apply
            ⟨some [0, 0], 2, 0, 0, 0⟩).head +
          (([RbOp.push (some [5]) 1, RbOp.pushOverwrite [1, 2, 3] 3,
            RbOp.pop true 1, RbOp.clear]).foldl rb_apply
            ⟨some [0, 0], 2, 0, 0, 0⟩).size) %
          (([RbOp.push (some [5]) 1, RbOp.pushOverwrite [1, 2, 3] 3,
            RbOp.pop true 1, RbOp.clear]).foldl rb_apply
            ⟨some [0, 0], 2, 0, 0, 0⟩).cap) :=
  ⟨by decide, C7_state_invariant 2 ⟨some [0, 0], 2, 0, 0, 0⟩ (by decide)
    [RbOp.push (some [5]) 1, RbOp.pushOverwrite [1, 2, 3] 3,
      RbOp.pop true 1, RbOp.clear]⟩

/-- C8: invalid-handle safety. On a buffer as left by `rb_free` (NULL data
pointer, zeroed fields — the model of an unconstructed or destroyed
handle), every operation is a no-op returning zero, the empty byte string
or "not found", and the state is unchanged. -/
theorem C8_invalid_handle_noop (rb : RingBuf) (src pat : Option (List Nat))
    (dst : Bool) (n k m : Nat) :
    rb_push (rb_free rb) src n = (rb_free rb, 0) ∧
    rb_pop (rb_free rb) dst n = (rb_free rb, []) ∧
    rb_peek (rb_free rb) dst n k = (rb_free rb, []) ∧
    rb_search (rb_free rb) pat m = none ∧
    rb_clear (rb_free rb) = rb_free rb ∧
    rb_capacity (rb_free rb) = 0 ∧
    rb_size (rb_free rb) = 0 ∧
    rb_free_space (rb_free rb) = 0 :=
  ⟨rfl, rfl, rfl, rfl, rfl, rfl, rfl, rfl⟩

/-- C10: NULL or zero-length arguments. `rb_push` with a NULL source or a
zero count, `rb_pop` with a NULL destination or a zero count, and `rb_peek`
with a NULL destination all return 0 bytes and leave the buffer (store and
all cursors) untouched, whatever its state. -/
theorem C10_null_args_noop (rb : RingBuf) (s : Option (List Nat)) (d : Bool)
    (n k : Nat) :
    rb_push rb none n = (rb, 0) ∧
    rb_push rb s 0 = (rb, 0) ∧
    rb_pop rb false n = (rb, []) ∧
    rb_pop rb d 0 = (rb, []) ∧
    rb_peek rb false n k = (rb, []) := by
  rcases rb with ⟨_ | d0, c, h0, t, sz⟩ <;> rcases s with _ | s0 <;> rcases d <;>
    exact ⟨by simp [rb_push], by simp [rb_push], by simp [rb_pop],
      by simp [rb_pop], by simp [rb_peek]⟩
